import Mathlib

/-!
# Formal model of `src/project_tracker.c`

A shallow embedding of the task-list program.  The in-memory state of the
GTK list box is modelled as a `List Task` (one element per list-box row, in
row order).  Character strings are modelled as `List Char`; C strings are
NUL-terminated and therefore NUL-free, so the embedding ranges over NUL-free
character lists.  File contents are likewise `List Char`.

Each definition is translated from the corresponding C function:

* `saveLine`, `saveContent`, `save_tasks_to_file`  ←  `save_tasks_to_file`
  (lines 82–104): one `fprintf(file, "%d;%s\n", is_completed, text)` per row,
  in row order; if `fopen` fails, a warning is logged and nothing is written.
* `fgetsChunk`, `readChunksAux`, `readChunks`  ←  the
  `fgets(line, sizeof(line), file)` loop (lines 121–122) with
  `char line[1024]`: each call reads at most 1023 characters, stopping after
  the first newline.
* `splitAtFirst`, `truncAtNewline`, `atoi`, `parseLine`, `load_parse`,
  `load_tasks_from_file`  ←  `load_tasks_from_file` (lines 114–147):
  `strchr(line, ';')` splits at the first separator, the prefix goes through
  `atoi` and is compared to 1, and `strchr(text, '\n')` truncates the text at
  the first newline; rows are appended to the list box in file order.
* `addTask`  ←  `on_add_button_clicked` (lines 159–172).
* `removeAux`, `removeTasks`  ←  `on_remove_button_clicked` (lines 183–199).
* `toggleTask`  ←  `on_check_button_toggled` (lines 210–224) together with
  the check-button state flip performed by GTK on the referenced row.
-/

namespace ProjectTracker

structure Task where
  text : List Char
  completed : Bool
deriving DecidableEq, Repr

/-- The completion digit written by `fprintf("%d;...", is_completed, ...)`:
`gtk_toggle_button_get_active` yields 1 (TRUE) or 0 (FALSE). -/
def flagChar (b : Bool) : Char := if b then '1' else '0'

/-- One line of the saved file: `<0|1>;<text>\n` (line 98 of the source). -/
def saveLine (t : Task) : List Char :=
  flagChar t.completed :: ';' :: (t.text ++ ['\n'])

/-- The full file content written by the save loop, one line per row in row
order (lines 89–101 of the source). -/
def saveContent (l : List Task) : List Char :=
  (l.map saveLine).flatten

/-- Model of `save_tasks_to_file` (lines 82–104).  `canOpen` models whether
`fopen("tasks.txt", "w")` succeeds.  The result is
`((file written, warning emitted), in-memory list afterwards)`: on failure
the function logs `g_warning` and returns without touching the list. -/
def save_tasks_to_file (canOpen : Bool) (tasks : List Task) :
    (Option (List Char) × Bool) × List Task :=
  if canOpen then ((some (saveContent tasks), false), tasks)
  else ((none, true), tasks)

/-- One `fgets(buf, n+1, file)` call on remaining content: reads at most `n`
characters, stopping after the first newline.  Returns
`(characters read, remaining content)`. -/
def fgetsChunk : List Char → Nat → List Char × List Char
  | [], _ => ([], [])
  | c :: cs, n =>
    if n = 0 then ([], c :: cs)
    else if c = '\n' then ([c], cs)
    else
      match fgetsChunk cs (n - 1) with
      | (chunk, rest) => (c :: chunk, rest)

/-- The `while (fgets(line, sizeof(line), file) != NULL)` loop (line 122)
with `char line[1024]`, hence at most 1023 characters per call.  `fuel`
bounds the number of iterations; each iteration consumes at least one
character, so `content.length` is always enough fuel. -/
def readChunksAux : Nat → List Char → List (List Char)
  | 0, _ => []
  | _ + 1, [] => []
  | fuel + 1, c :: cs =>
    match fgetsChunk (c :: cs) 1023 with
    | (chunk, rest) => chunk :: readChunksAux fuel rest

/-- The sequence of buffer contents produced by the `fgets` loop. -/
def readChunks (content : List Char) : List (List Char) :=
  readChunksAux content.length content

/-- Model of `strchr(line, c)` followed by splitting at the found position
(lines 127–131): `some (before, after)` at the first occurrence of `c`,
`none` if `c` does not occur. -/
def splitAtFirst (c : Char) : List Char → Option (List Char × List Char)
  | [] => none
  | x :: xs =>
    if x = c then some ([], xs)
    else
      match splitAtFirst c xs with
      | none => none
      | some (a, b) => some (x :: a, b)

/-- Model of `strchr(text, '\n')` plus `*newline_pos = '\0'` (lines 137–140):
truncate at the first newline, if any. -/
def truncAtNewline (l : List Char) : List Char :=
  l.takeWhile (fun c => c ≠ '\n')

/-- `isspace` in the C locale, as used by `atoi`. -/
def isAsciiSpace (c : Char) : Bool :=
  c = ' ' || c = '\t' || c = '\n' || c = '\x0b' || c = '\x0c' || c = '\r'

/-- Digit-accumulation loop of `atoi`. -/
def atoiDigits : List Char → Nat → Nat
  | [], acc => acc
  | c :: cs, acc =>
    if c.isDigit then atoiDigits cs (acc * 10 + (c.toNat - 48)) else acc

/-- C `atoi`: skip leading whitespace, optional sign, then leading digits;
0 if no digits.  (Modelled with unbounded integers; `atoi` overflow is
undefined behaviour in C and is not modelled.) -/
def atoi (l : List Char) : Int :=
  match l.dropWhile (fun c => isAsciiSpace c) with
  | '-' :: rest => -(atoiDigits rest 0 : Int)
  | '+' :: rest => (atoiDigits rest 0 : Int)
  | other => (atoiDigits other 0 : Int)

/-- Parsing of one buffer content (lines 123–140): split at the first `;`
if present, `atoi` the prefix and compare with 1, truncate the text at the
first newline; with no `;` the whole buffer is the text and the task is
uncompleted. -/
def parseLine (line : List Char) : Task :=
  match splitAtFirst ';' line with
  | some (pre, post) => { text := truncAtNewline post, completed := atoi pre == 1 }
  | none => { text := truncAtNewline line, completed := false }

/-- The tasks appended to the list box by `load_tasks_from_file` when the
file opens with the given content. -/
def load_parse (content : List Char) : List Task :=
  (readChunks content).map parseLine

/-- Model of `load_tasks_from_file` (lines 114–147).  `file = none` models a failed
`fopen("tasks.txt", "r")` (missing file): the function prints an
informational message and returns, leaving the list box unchanged.
Otherwise each parsed task is appended to the list box in file order. -/
def load_tasks_from_file (file : Option (List Char)) (box : List Task) :
    List Task :=
  match file with
  | none => box
  | some content => box ++ load_parse content

/-- Model of `on_add_button_clicked` (lines 159–172).  The entry text is added as an
uncompleted row at the end of the list box iff `strlen(text) > 0`; a save
follows iff the row was added.  Result:
`(list afterwards, created task, number of save calls)`. -/
def addTask (text : List Char) (tasks : List Task) :
    List Task × Option Task × Nat :=
  if 0 < text.length then
    (tasks ++ [⟨text, false⟩], some ⟨text, false⟩, 1)
  else
    (tasks, none, 0)

/-- The removal loop of `on_remove_button_clicked` (lines 192–195): rows are
removed by widget identity, so the surviving rows are exactly those whose
original position is not referenced.  `i` is the position of the head of the
remaining list in the original list. -/
def removeAux (refs : List Nat) : List Task → Nat → List Task
  | [], _ => []
  | t :: ts, i =>
    if refs.contains i then removeAux refs ts (i + 1)
    else t :: removeAux refs ts (i + 1)

/-- Model of `on_remove_button_clicked` (lines 183–199).  `refs` is the set of
selected row positions (`gtk_list_box_get_selected_rows`).  A single save
happens iff the selection is non-empty (`if (selected_rows) { ...; save }`).
Result: `(list afterwards, number of rows removed, number of save calls)`. -/
def removeTasks (refs : List Nat) (tasks : List Task) :
    List Task × Nat × Nat :=
  (removeAux refs tasks 0,
   tasks.length - (removeAux refs tasks 0).length,
   if refs.isEmpty then 0 else 1)

/-- The state change of toggling the check button of the row at position
`i`: GTK flips the button's active flag, `on_check_button_toggled`
(lines 210–224) restyles the label and saves; text and all other rows are
untouched.  Out-of-range positions leave the list unchanged. -/
def toggleTask : List Task → Nat → List Task
  | [], _ => []
  | t :: ts, 0 => ⟨t.text, !t.completed⟩ :: ts
  | t :: ts, i + 1 => t :: toggleTask ts i

/-- Strip one trailing newline, following the spec's wording "the remainder
of the line up to but excluding the line terminator" (§4.1 / §6); used only
to compare `parseLine` against the spec's description. -/
def stripTrailingNL (l : List Char) : List Char :=
  if l.getLast? = some '\n' then l.dropLast else l

/-- The per-line parse rule as the spec states it (§4.1, §6): if the line
contains a `;`, the flag is "prefix before the first `;` parses equal to 1"
and the text is the remainder after that `;` with the trailing newline
stripped; otherwise the whole line (newline stripped) is an uncompleted
task. -/
def specParseLine (line : List Char) : Task :=
  if ';' ∈ line then
    { text := stripTrailingNL ((line.dropWhile (fun c => c ≠ ';')).tail),
      completed := atoi (line.takeWhile (fun c => c ≠ ';')) == 1 }
  else
    { text := stripTrailingNL line, completed := false }

end ProjectTracker

namespace ProjectTracker

theorem takeWhile_all {p : Char → Bool} {l : List Char}
    (h : ∀ a ∈ l, p a = true) : l.takeWhile p = l := by
  induction l with
  | nil => rfl
  | cons c cs ih =>
    have hc : p c = true := h c (List.mem_cons_self c cs)
    simp [List.takeWhile_cons, hc,
      ih (fun a ha => h a (List.mem_cons_of_mem c ha))]

theorem truncAtNewline_no_newline (l : List Char) :
    '\n' ∉ truncAtNewline l := by
  intro h
  have := List.mem_takeWhile_imp h
  simp at this

theorem truncAtNewline_of_not_mem {l : List Char} (h : '\n' ∉ l) :
    truncAtNewline l = l := by
  apply takeWhile_all
  intro a ha
  simp only [decide_eq_true_eq]
  intro rfl_eq
  exact h (rfl_eq ▸ ha)

theorem truncAtNewline_append_nl {l : List Char} (r : List Char)
    (h : '\n' ∉ l) :
    truncAtNewline (l ++ '\n' :: r) = l := by
  unfold truncAtNewline
  rw [List.takeWhile_append_of_pos]
  · simp [List.takeWhile_cons]
  · intro a ha
    simp only [decide_eq_true_eq]
    intro rfl_eq
    exact h (rfl_eq ▸ ha)

end ProjectTracker

namespace ProjectTracker

theorem fgetsChunk_rest_le (l : List Char) (n : Nat) :
    (fgetsChunk l n).2.length ≤ l.length := by
  induction l generalizing n with
  | nil => simp [fgetsChunk]
  | cons c cs ih =>
    by_cases h0 : n = 0
    · simp [fgetsChunk, h0]
    · by_cases hc : c = '\n'
      · simp [fgetsChunk, h0, hc]
      · have h := ih (n - 1)
        rcases hp : fgetsChunk cs (n - 1) with ⟨chunk, rest⟩
        rw [hp] at h
        simp only [fgetsChunk, h0, hc, if_false, hp]
        simpa using Nat.le_succ_of_le h

theorem fgetsChunk_cons_rest_le (c : Char) (cs : List Char) (n : Nat)
    (h0 : n ≠ 0) :
    (fgetsChunk (c :: cs) n).2.length ≤ cs.length := by
  by_cases hc : c = '\n'
  · simp [fgetsChunk, h0, hc]
  · have h := fgetsChunk_rest_le cs (n - 1)
    rcases hp : fgetsChunk cs (n - 1) with ⟨chunk, rest⟩
    rw [hp] at h
    simpa [fgetsChunk, h0, hc, hp] using h

theorem fgetsChunk_line {l : List Char} (rest : List Char) (n : Nat)
    (hnl : '\n' ∉ l) (hn : l.length + 1 ≤ n) :
    fgetsChunk (l ++ '\n' :: rest) n = (l ++ ['\n'], rest) := by
  induction l generalizing n with
  | nil =>
    have h0 : n ≠ 0 := by omega
    simp [fgetsChunk, h0]
  | cons c cs ih =>
    have h0 : n ≠ 0 := by simp at hn; omega
    have hc : c ≠ '\n' := fun h => hnl (h ▸ List.mem_cons_self c cs)
    have hcs : '\n' ∉ cs := fun h => hnl (List.mem_cons_of_mem c h)
    have hn' : cs.length + 1 ≤ n - 1 := by simp at hn; omega
    rw [List.cons_append]
    simp only [fgetsChunk, h0, if_false, hc]
    rw [ih (n := n - 1) hcs hn']
    simp

theorem fgetsChunk_replicate {c : Char} (hc : c ≠ '\n') :
    ∀ (n k : Nat) (rest : List Char), n ≤ k →
      fgetsChunk (List.replicate k c ++ rest) n =
        (List.replicate n c, List.replicate (k - n) c ++ rest) := by
  intro n
  induction n with
  | zero =>
    intro k rest _
    cases hk : List.replicate k c ++ rest with
    | nil =>
      rcases List.append_eq_nil.mp hk with ⟨h1, h2⟩
      simp [fgetsChunk, h1, h2]
    | cons x xs => simp [fgetsChunk, ← hk]
  | succ m ih =>
    intro k rest hmk
    obtain ⟨k', rfl⟩ : ∃ k', k = k' + 1 := ⟨k - 1, by omega⟩
    have hmk' : m ≤ k' := by omega
    rw [List.replicate_succ, List.cons_append]
    simp only [fgetsChunk, Nat.succ_ne_zero, if_false, hc, Nat.add_sub_cancel]
    rw [ih k' rest hmk']
    simp [Nat.succ_sub_succ, List.replicate_succ]

end ProjectTracker

namespace ProjectTracker

theorem readChunksAux_nil (f : Nat) : readChunksAux f [] = [] := by
  cases f <;> rfl

theorem readChunksAux_congr (f₁ : Nat) :
    ∀ (f₂ : Nat) (l : List Char), l.length ≤ f₁ → l.length ≤ f₂ →
      readChunksAux f₁ l = readChunksAux f₂ l := by
  induction f₁ with
  | zero =>
    intro f₂ l h1 _
    have : l = [] := List.eq_nil_of_length_eq_zero (Nat.le_zero.mp h1)
    subst this
    simp [readChunksAux_nil]
  | succ f ih =>
    intro f₂ l h1 h2
    cases l with
    | nil => simp [readChunksAux_nil]
    | cons c cs =>
      cases f₂ with
      | zero => simp at h2
      | succ g =>
        have hrest : (fgetsChunk (c :: cs) 1023).2.length ≤ cs.length :=
          fgetsChunk_cons_rest_le c cs 1023 (by omega)
        rcases hp : fgetsChunk (c :: cs) 1023 with ⟨chunk, rest⟩
        rw [hp] at hrest
        simp only at hrest
        simp only [readChunksAux, hp]
        simp only [List.length_cons] at h1 h2
        rw [ih g rest (by omega) (by omega)]

theorem readChunksAux_line (f : Nat) {L : List Char} (rest : List Char)
    (hnl : '\n' ∉ L) (hlen : L.length ≤ 1022) :
    readChunksAux (f + 1) (L ++ '\n' :: rest) =
      (L ++ ['\n']) :: readChunksAux f rest := by
  have hsplit := fgetsChunk_line (l := L) rest 1023 hnl (by omega)
  cases L with
  | nil =>
    simp only [List.nil_append] at hsplit ⊢
    simp only [readChunksAux, hsplit]
  | cons c cs =>
    simp only [List.cons_append] at hsplit ⊢
    simp only [readChunksAux, hsplit]

theorem splitAtFirst_of_not_mem {c : Char} {l : List Char} (h : c ∉ l) :
    splitAtFirst c l = none := by
  induction l with
  | nil => rfl
  | cons x xs ih =>
    have hx : x ≠ c := fun he => h (he ▸ List.mem_cons_self x xs)
    have hxs : c ∉ xs := fun hm => h (List.mem_cons_of_mem x hm)
    simp only [splitAtFirst, if_neg (fun he => hx he), ih hxs]

theorem splitAtFirst_of_mem {c : Char} {l : List Char} (h : c ∈ l) :
    splitAtFirst c l =
      some (l.takeWhile (fun a => a ≠ c), (l.dropWhile (fun a => a ≠ c)).tail) := by
  induction l with
  | nil => simp at h
  | cons x xs ih =>
    by_cases hx : x = c
    · subst hx
      simp [splitAtFirst, List.takeWhile_cons, List.dropWhile_cons]
    · have hm : c ∈ xs := by
        rcases List.mem_cons.mp h with h1 | h1
        · exact absurd h1.symm hx
        · exact h1
      simp only [splitAtFirst, if_neg hx, ih hm, List.takeWhile_cons,
        List.dropWhile_cons]
      simp [hx]

theorem splitAtFirst_append {c : Char} {a l : List Char} (ha : c ∉ a) :
    splitAtFirst c (a ++ c :: l) = some (a, l) := by
  induction a with
  | nil => simp [splitAtFirst]
  | cons x xs ih =>
    have hx : x ≠ c := fun he => ha (he ▸ List.mem_cons_self x xs)
    have hxs : c ∉ xs := fun hm => ha (List.mem_cons_of_mem x hm)
    simp only [List.cons_append, splitAtFirst, if_neg hx, List.append_eq]
    rw [ih hxs]

theorem atoi_flag (b : Bool) : atoi [flagChar b] = if b then 1 else 0 := by
  cases b <;> rfl

theorem flagChar_ne_sep (b : Bool) : flagChar b ≠ ';' := by
  cases b <;> decide

theorem flagChar_ne_nl (b : Bool) : flagChar b ≠ '\n' := by
  cases b <;> decide

theorem parseLine_saveLine {t : Task} (h : '\n' ∉ t.text) :
    parseLine (saveLine t) = t := by
  obtain ⟨tx, tc⟩ := t
  simp only at h
  have hsep : splitAtFirst ';' (saveLine ⟨tx, tc⟩) =
      some ([flagChar tc], tx ++ ['\n']) := by
    have h1 : saveLine ⟨tx, tc⟩ = [flagChar tc] ++ ';' :: (tx ++ ['\n']) := rfl
    rw [h1]
    apply splitAtFirst_append
    intro hm
    rcases List.mem_singleton.mp hm with he
    exact flagChar_ne_sep tc he.symm
  simp only [parseLine, hsep]
  have htext : truncAtNewline (tx ++ ['\n']) = tx := by
    have h2 : tx ++ ['\n'] = tx ++ '\n' :: ([] : List Char) := rfl
    rw [h2, truncAtNewline_append_nl _ h]
  rw [htext, atoi_flag]
  cases tc <;> simp

end ProjectTracker

namespace ProjectTracker

theorem fgetsChunk_step (c : Char) (cs : List Char) {n : Nat}
    (h0 : n ≠ 0) (hc : c ≠ '\n') :
    fgetsChunk (c :: cs) n =
      (c :: (fgetsChunk cs (n - 1)).1, (fgetsChunk cs (n - 1)).2) := by
  rcases hp : fgetsChunk cs (n - 1) with ⟨a, b⟩
  simp [fgetsChunk, h0, hc, hp]

theorem readChunksAux_step (f : Nat) (c : Char) (cs : List Char) :
    readChunksAux (f + 1) (c :: cs) =
      (fgetsChunk (c :: cs) 1023).1 ::
        readChunksAux f (fgetsChunk (c :: cs) 1023).2 := by
  rcases hp : fgetsChunk (c :: cs) 1023 with ⟨a, b⟩
  simp [readChunksAux, hp]

theorem load_parse_saveContent : ∀ l : List Task,
    (∀ t ∈ l, '\n' ∉ t.text ∧ t.text.length ≤ 1020) →
    load_parse (saveContent l) = l := by
  intro l
  induction l with
  | nil => intro _; rfl
  | cons t ts ih =>
    intro h
    obtain ⟨hnl, hlen⟩ := h t (List.mem_cons_self t ts)
    have hts : ∀ u ∈ ts, '\n' ∉ u.text ∧ u.text.length ≤ 1020 :=
      fun u hu => h u (List.mem_cons_of_mem t hu)
    have hL : '\n' ∉ (flagChar t.completed :: ';' :: t.text) := by
      intro hm
      rcases List.mem_cons.mp hm with he | hm2
      · exact flagChar_ne_nl t.completed he.symm
      · rcases List.mem_cons.mp hm2 with he | hm3
        · exact absurd he (by decide)
        · exact hnl hm3
    have hcontent : saveContent (t :: ts) =
        (flagChar t.completed :: ';' :: t.text) ++ '\n' :: saveContent ts := by
      simp [saveContent, saveLine, List.append_assoc]
    have hlen2 : (saveContent (t :: ts)).length =
        (t.text.length + 2 + (saveContent ts).length) + 1 := by
      rw [hcontent]; simp; omega
    unfold load_parse readChunks
    rw [hlen2, hcontent,
      readChunksAux_line (t.text.length + 2 + (saveContent ts).length)
        (saveContent ts) hL (by simp; omega),
      readChunksAux_congr _ (saveContent ts).length (saveContent ts)
        (by omega) (le_refl _)]
    have hline : (flagChar t.completed :: ';' :: t.text) ++ ['\n'] = saveLine t := by
      simp [saveLine]
    rw [List.map_cons, hline, parseLine_saveLine hnl]
    have := ih hts
    unfold load_parse readChunks at this
    rw [this]

/-- C1: saving and re-loading preserves any task list whose texts avoid the
separator and newline **and are at most 1020 characters long**; the length
bound comes from the 1024-byte `fgets` buffer and is the amendment forced by
`C1_counterexample`. -/
theorem C1_round_trip_bounded (l : List Task)
    (h : ∀ t ∈ l, ';' ∉ t.text ∧ '\n' ∉ t.text ∧ t.text.length ≤ 1020) :
    load_tasks_from_file (some (saveContent l)) [] = l := by
  have hload := load_parse_saveContent l (fun t ht => ⟨(h t ht).2.1, (h t ht).2.2⟩)
  simpa [load_tasks_from_file] using hload

/-- Witness for `C1_round_trip_bounded` at a concrete two-task list. -/
theorem C1_round_trip_bounded_witness :
    load_tasks_from_file
        (some (saveContent [⟨['h', 'i'], true⟩, ⟨['y', 'o'], false⟩])) [] =
      [⟨['h', 'i'], true⟩, ⟨['y', 'o'], false⟩] :=
  C1_round_trip_bounded _ (by decide)

/-- C1 fails as stated: a single task of 1021 separator-free, newline-free
characters does not survive a save/load round trip, because its saved line
is 1024 characters and the 1024-byte `fgets` buffer splits it in two. -/
theorem C1_counterexample :
    (∀ t ∈ [Task.mk (List.replicate 1021 'a') false],
        ';' ∉ t.text ∧ '\n' ∉ t.text) ∧
    load_tasks_from_file
        (some (saveContent [Task.mk (List.replicate 1021 'a') false])) [] ≠
      [Task.mk (List.replicate 1021 'a') false] := by
  constructor
  · intro t ht
    rcases List.mem_singleton.mp ht with rfl
    constructor
    · intro hm
      rcases (List.mem_replicate.mp hm).2 with he
      exact absurd he (by decide)
    · intro hm
      rcases (List.mem_replicate.mp hm).2 with he
      exact absurd he (by decide)
  · have hrep := fgetsChunk_replicate (c := 'a') (by decide) 1021 1021 ['\n'] (le_refl _)
    simp only [Nat.sub_self, List.replicate_zero, List.nil_append] at hrep
    have hcontent : saveContent [Task.mk (List.replicate 1021 'a') false] =
        '0' :: ';' :: (List.replicate 1021 'a' ++ ['\n']) := by
      simp only [saveContent, List.map_cons, List.map_nil, List.flatten_cons,
        List.flatten_nil, List.append_nil, saveLine, flagChar,
        Bool.false_eq_true, if_false]
    have hchunk : fgetsChunk ('0' :: ';' :: (List.replicate 1021 'a' ++ ['\n'])) 1023 =
        ('0' :: ';' :: List.replicate 1021 'a', ['\n']) := by
      rw [fgetsChunk_step '0' _ (by decide) (by decide),
        fgetsChunk_step ';' _ (by decide) (by decide),
        show (1023 : Nat) - 1 - 1 = 1021 from rfl, hrep]
    have hclen : ('0' :: ';' :: (List.replicate 1021 'a' ++ ['\n'])).length = 1024 := by
      simp only [List.length_cons, List.length_append, List.length_replicate,
        List.length_nil]
    have hchunks : readChunksAux 1024 ('0' :: ';' :: (List.replicate 1021 'a' ++ ['\n'])) =
        ['0' :: ';' :: List.replicate 1021 'a', ['\n']] := by
      rw [show (1024 : Nat) = 1023 + 1 from rfl, readChunksAux_step, hchunk]
      rfl
    have hparse1 : parseLine ('0' :: ';' :: List.replicate 1021 'a') =
        Task.mk (List.replicate 1021 'a') false := by
      have hsep : splitAtFirst ';' ('0' :: ';' :: List.replicate 1021 'a') =
          some (['0'], List.replicate 1021 'a') := by
        have h1 : '0' :: ';' :: List.replicate 1021 'a' =
            ['0'] ++ ';' :: List.replicate 1021 'a' := rfl
        rw [h1]
        apply splitAtFirst_append
        intro hm
        rcases List.mem_singleton.mp hm with he
        exact absurd he (by decide)
      have htr : truncAtNewline (List.replicate 1021 'a') = List.replicate 1021 'a' := by
        apply truncAtNewline_of_not_mem
        intro hm
        rcases (List.mem_replicate.mp hm).2 with he
        exact absurd he (by decide)
      have hflag : (atoi ['0'] == (1 : Int)) = false := by decide
      simp only [parseLine, hsep, htr, hflag]
    have hload : load_tasks_from_file
        (some (saveContent [Task.mk (List.replicate 1021 'a') false])) [] =
        [Task.mk (List.replicate 1021 'a') false, Task.mk [] false] := by
      simp only [load_tasks_from_file, List.nil_append, load_parse, readChunks,
        hcontent, hclen, hchunks, List.map_cons, List.map_nil, hparse1]
      rfl
    rw [hload]
    intro heq
    have hlen12 := congrArg List.length heq
    simp only [List.length_cons, List.length_nil] at hlen12
    omega

/-- C10: the `fgets` loop reads at most 1023 characters at a time: a file
holding a single 1024-character line (no separator) loads as two tasks,
split at the buffer boundary. -/
theorem C10_chunked_load :
    ('\n' ∉ List.replicate (1024 : Nat) 'a') ∧
    1023 < (List.replicate (1024 : Nat) 'a').length ∧
    load_parse (List.replicate 1024 'a' ++ ['\n']) =
      [Task.mk (List.replicate 1023 'a') false, Task.mk ['a'] false] ∧
    1 < (load_parse (List.replicate 1024 'a' ++ ['\n'])).length := by
  have hnomem : ∀ k : Nat, ';' ∉ List.replicate k 'a' := by
    intro k hm
    rcases (List.mem_replicate.mp hm).2 with he
    exact absurd he (by decide)
  have hnonl : ∀ k : Nat, '\n' ∉ List.replicate k 'a' := by
    intro k hm
    rcases (List.mem_replicate.mp hm).2 with he
    exact absurd he (by decide)
  have hchunk : fgetsChunk (List.replicate 1024 'a' ++ ['\n']) 1023 =
      (List.replicate 1023 'a', ['a', '\n']) := by
    have hrep := fgetsChunk_replicate (c := 'a') (by decide) 1023 1024 ['\n']
      (by omega)
    rw [show (1024 : Nat) - 1023 = 1 from rfl,
      show List.replicate 1 'a' ++ ['\n'] = ['a', '\n'] from rfl] at hrep
    exact hrep
  have hclen : (List.replicate 1024 'a' ++ ['\n']).length = 1025 := by
    simp only [List.length_append, List.length_replicate, List.length_cons,
      List.length_nil]
  have hrepcons : ∃ x xs, List.replicate 1024 'a' ++ ['\n'] = x :: xs := by
    exact ⟨'a', List.replicate 1023 'a' ++ ['\n'], by
      rw [show (1024 : Nat) = 1023 + 1 from rfl, List.replicate_succ, List.cons_append]⟩
  obtain ⟨x, xs, hx⟩ := hrepcons
  have hchunks : readChunksAux 1025 (List.replicate 1024 'a' ++ ['\n']) =
      [List.replicate 1023 'a', ['a', '\n']] := by
    rw [hx, show (1025 : Nat) = 1024 + 1 from rfl, readChunksAux_step, ← hx, hchunk]
    rfl
  have hparse1 : parseLine (List.replicate 1023 'a') =
      Task.mk (List.replicate 1023 'a') false := by
    have hsep := splitAtFirst_of_not_mem (hnomem 1023)
    have htr : truncAtNewline (List.replicate 1023 'a') = List.replicate 1023 'a' :=
      truncAtNewline_of_not_mem (hnonl 1023)
    simp only [parseLine, hsep, htr]
  have hload : load_parse (List.replicate 1024 'a' ++ ['\n']) =
      [Task.mk (List.replicate 1023 'a') false, Task.mk ['a'] false] := by
    simp only [load_parse, readChunks, hclen, hchunks, List.map_cons,
      List.map_nil, hparse1]
    rfl
  refine ⟨hnonl 1024, by rw [List.length_replicate]; omega, hload, ?_⟩
  rw [hload]
  simp only [List.length_cons, List.length_nil]
  omega

end ProjectTracker

namespace ProjectTracker

/-- C2 fails as stated: a whitespace-only but non-empty entry text passes
the `strlen(text) > 0` gate, so it is appended, saved, and returned — the
code performs no trimming. -/
theorem C2_counterexample :
    (∀ c ∈ ([' '] : List Char), isAsciiSpace c = true) ∧
    (addTask [' '] []).1 ≠ [] ∧
    (addTask [' '] []).2.1 ≠ none ∧
    (addTask [' '] []).2.2 ≠ 0 := by
  decide

/-- C2 amended: `addTask` is a no-op — list unchanged, no save, no task
returned — exactly for the empty input string. -/
theorem C2_empty_noop (tasks : List Task) :
    addTask [] tasks = (tasks, none, 0) := by
  simp [addTask]

/-- C6: for non-empty (in particular non-whitespace) input, `addTask`
appends exactly one uncompleted task with the given text at the end, leaves
the existing tasks unchanged, saves once, and returns the created task. -/
theorem C6_add_appends (text : List Char) (tasks : List Task)
    (h1 : text ≠ []) (h2 : ¬ ∀ c ∈ text, isAsciiSpace c = true) :
    addTask text tasks = (tasks ++ [⟨text, false⟩], some ⟨text, false⟩, 1) := by
  have hpos : 0 < text.length := List.length_pos.mpr h1
  simp [addTask, hpos]

/-- Witness for `C6_add_appends`: from the empty list, adding "buy milk"
yields the one-element list containing it. -/
theorem C6_add_appends_witness :
    addTask ['b', 'u', 'y', ' ', 'm', 'i', 'l', 'k'] [] =
      ([⟨['b', 'u', 'y', ' ', 'm', 'i', 'l', 'k'], false⟩],
       some ⟨['b', 'u', 'y', ' ', 'm', 'i', 'l', 'k'], false⟩, 1) :=
  C6_add_appends _ _ (by decide) (by decide)

/-- C7: a missing backing file makes load a silent no-op — the list box is
left as it was (empty at startup), and no error path exists in the code. -/
theorem C7_missing_file_empty :
    load_tasks_from_file none [] = [] ∧
    ∀ box : List Task, load_tasks_from_file none box = box :=
  ⟨rfl, fun _ => rfl⟩

/-- C8: when the file cannot be opened for writing, save writes nothing,
emits the warning, and leaves the in-memory task list unchanged. -/
theorem C8_save_failure_state (tasks : List Task) :
    save_tasks_to_file false tasks = ((none, true), tasks) := by
  simp [save_tasks_to_file]

theorem toggleTask_toggleTask (tasks : List Task) :
    ∀ i : Nat, toggleTask (toggleTask tasks i) i = tasks := by
  induction tasks with
  | nil => intro i; rfl
  | cons t ts ih =>
    intro i
    cases i with
    | zero => simp [toggleTask, Bool.not_not]
    | succ j => simp [toggleTask, ih j]

theorem toggleTask_eq (tasks : List Task) :
    ∀ (i : Nat) (h : i < tasks.length),
      toggleTask tasks i =
        tasks.take i ++
          ⟨(tasks.get ⟨i, h⟩).text, !(tasks.get ⟨i, h⟩).completed⟩ ::
            tasks.drop (i + 1) := by
  induction tasks with
  | nil => intro i h; simp at h
  | cons t ts ih =>
    intro i h
    cases i with
    | zero => simp [toggleTask]
    | succ j =>
      have hj : j < ts.length := by simp at h; omega
      simp [toggleTask, ih j hj]

/-- C9: toggling a valid position flips that task's completed flag while
keeping its text and all other tasks (and the order) unchanged, and toggling
twice restores the original list. -/
theorem C9_toggle_flips_one (tasks : List Task) (i : Nat)
    (h : i < tasks.length) :
    toggleTask tasks i =
      tasks.take i ++
        ⟨(tasks.get ⟨i, h⟩).text, !(tasks.get ⟨i, h⟩).completed⟩ ::
          tasks.drop (i + 1) ∧
    toggleTask (toggleTask tasks i) i = tasks :=
  ⟨toggleTask_eq tasks i h, toggleTask_toggleTask tasks i⟩

/-- Witness for `C9_toggle_flips_one`: toggling the second of two tasks
flips exactly it, and toggling again restores the list. -/
theorem C9_toggle_flips_one_witness :
    toggleTask [Task.mk ['a'] false, Task.mk ['b'] false] 1 =
      [Task.mk ['a'] false, Task.mk ['b'] true] ∧
    toggleTask (toggleTask [Task.mk ['a'] false, Task.mk ['b'] false] 1) 1 =
      [Task.mk ['a'] false, Task.mk ['b'] false] := by
  have h := C9_toggle_flips_one [Task.mk ['a'] false, Task.mk ['b'] false] 1
    (by decide)
  exact ⟨h.1.trans (by decide), h.2⟩

end ProjectTracker

namespace ProjectTracker

theorem mem_dropLast_append (c : Char) (a : List Char) {b : List Char}
    (hb : c ∈ b.dropLast) : c ∈ (a ++ b).dropLast := by
  cases b with
  | nil => simp at hb
  | cons x bs =>
    rw [List.dropLast_append_cons]
    exact List.mem_append_right a hb

theorem truncAtNewline_eq_strip {l : List Char} (h : '\n' ∉ l.dropLast) :
    truncAtNewline l = stripTrailingNL l := by
  induction l using List.reverseRecOn with
  | nil => rfl
  | append_singleton ys x _ =>
    rw [List.dropLast_concat] at h
    by_cases hx : x = '\n'
    · subst hx
      rw [truncAtNewline_append_nl ([] : List Char) h]
      unfold stripTrailingNL
      rw [List.getLast?_concat]
      simp [List.dropLast_concat]
    · have hall : '\n' ∉ ys ++ [x] := by
        intro hm
        rcases List.mem_append.mp hm with hm1 | hm2
        · exact h hm1
        · exact hx (List.mem_singleton.mp hm2).symm
      rw [truncAtNewline_of_not_mem hall]
      unfold stripTrailingNL
      rw [List.getLast?_concat]
      simp [hx]

theorem splitAtFirst_decomp {c : Char} : ∀ {l a b : List Char},
    splitAtFirst c l = some (a, b) → l = a ++ c :: b := by
  intro l
  induction l with
  | nil => intro a b h; simp [splitAtFirst] at h
  | cons x xs ih =>
    intro a b h
    by_cases hx : x = c
    · subst hx
      simp only [splitAtFirst, if_pos rfl, Option.some.injEq, Prod.mk.injEq] at h
      rcases h with ⟨rfl, rfl⟩
      simp
    · rcases hsp : splitAtFirst c xs with _ | ⟨a', b'⟩
      · simp only [splitAtFirst, if_neg hx, hsp] at h
        exact Option.noConfusion h
      · simp only [splitAtFirst, if_neg hx, hsp, Option.some.injEq,
          Prod.mk.injEq] at h
        rcases h with ⟨rfl, rfl⟩
        simp [ih hsp]

theorem fgetsChunk_chunk_shape (l : List Char) :
    ∀ n : Nat, '\n' ∉ ((fgetsChunk l n).1).dropLast := by
  induction l with
  | nil => intro n; simp [fgetsChunk]
  | cons c cs ih =>
    intro n
    by_cases h0 : n = 0
    · simp [fgetsChunk, h0]
    · by_cases hc : c = '\n'
      · simp [fgetsChunk, h0, hc]
      · rcases hp : fgetsChunk cs (n - 1) with ⟨chunk, rest⟩
        have hsub := ih (n - 1)
        rw [hp] at hsub
        simp only at hsub
        simp only [fgetsChunk, h0, if_false, hc, hp]
        cases chunk with
        | nil => simp
        | cons y ys =>
          rw [show (c :: y :: ys).dropLast = c :: (y :: ys).dropLast from rfl]
          intro hm
          rcases List.mem_cons.mp hm with he | hm2
          · exact hc he.symm
          · exact hsub hm2

theorem readChunksAux_chunk_shape : ∀ (f : Nat) (l : List Char),
    ∀ chunk ∈ readChunksAux f l, '\n' ∉ chunk.dropLast := by
  intro f
  induction f with
  | zero => intro l chunk h; simp [readChunksAux] at h
  | succ g ih =>
    intro l chunk h
    cases l with
    | nil => simp [readChunksAux] at h
    | cons c cs =>
      rcases hp : fgetsChunk (c :: cs) 1023 with ⟨ch, rest⟩
      simp only [readChunksAux, hp] at h
      rcases List.mem_cons.mp h with rfl | h2
      · have hsh := fgetsChunk_chunk_shape (c :: cs) 1023
        rw [hp] at hsh
        simpa using hsh
      · exact ih rest chunk h2

/-- C4: every buffer content produced by the `fgets` loop is parsed exactly
as the spec's per-line rule describes: flag from the `atoi` of the prefix
before the first `;` compared with 1, text the remainder with the trailing
newline stripped, and a whole (newline-stripped) line as uncompleted task
when no `;` occurs. -/
theorem C4_parse_line_spec (content : List Char) :
    ∀ chunk ∈ readChunks content, parseLine chunk = specParseLine chunk := by
  intro chunk hchunk
  have hshape : '\n' ∉ chunk.dropLast :=
    readChunksAux_chunk_shape content.length content chunk hchunk
  by_cases hmem : ';' ∈ chunk
  · have hsp := splitAtFirst_of_mem hmem
    have hdec := splitAtFirst_decomp hsp
    have hpost : '\n' ∉ ((chunk.dropWhile (fun a => a ≠ ';')).tail).dropLast := by
      intro hm
      apply hshape
      rw [hdec]
      exact mem_dropLast_append '\n' _
        (mem_dropLast_append '\n' [';'] hm)
    simp only [parseLine, hsp, specParseLine, if_pos hmem]
    rw [truncAtNewline_eq_strip hpost]
  · have hsp := splitAtFirst_of_not_mem hmem
    simp only [parseLine, hsp, specParseLine, if_neg hmem]
    rw [truncAtNewline_eq_strip hshape]

/-- Witness for `C4_parse_line_spec` on the line `1;hi\n`. -/
theorem C4_parse_line_spec_witness :
    parseLine ['1', ';', 'h', 'i', '\n'] =
      specParseLine ['1', ';', 'h', 'i', '\n'] :=
  C4_parse_line_spec ['1', ';', 'h', 'i', '\n'] ['1', ';', 'h', 'i', '\n']
    (by decide)

end ProjectTracker

namespace ProjectTracker

/-- C3 fails as stated: the file `1;a;b\n;\n` loads as a task whose text
`a;b` contains the separator and a task with empty text, so neither
non-emptiness nor separator-freedom is an invariant of loaded lists. -/
theorem C3_counterexample :
    ¬ (∀ t ∈ load_parse ['1', ';', 'a', ';', 'b', '\n', ';', '\n'],
        t.text ≠ [] ∧ ';' ∉ t.text ∧ '\n' ∉ t.text) := by
  decide

theorem mem_removeAux {refs : List Nat} {t : Task} :
    ∀ {ts : List Task} {i : Nat}, t ∈ removeAux refs ts i → t ∈ ts := by
  intro ts
  induction ts with
  | nil => intro i h; simp [removeAux] at h
  | cons u us ih =>
    intro i h
    by_cases hc : refs.contains i
    · simp only [removeAux, if_pos hc] at h
      exact List.mem_cons_of_mem u (ih h)
    · simp only [removeAux, if_neg hc] at h
      rcases List.mem_cons.mp h with rfl | h2
      · exact List.mem_cons_self _ _
      · exact List.mem_cons_of_mem _ (ih h2)

/-- C3 amended: what load's sanitization actually guarantees is
newline-freedom — every task produced by `load` has no newline in its text
(the text may be empty or contain `;`) — and this newline-free invariant is
preserved by toggle and remove unconditionally and by add whenever the added
text is newline-free. -/
theorem C3_no_newline_invariant :
    (∀ content : List Char, ∀ t ∈ load_parse content, '\n' ∉ t.text) ∧
    (∀ (text : List Char) (tasks : List Task), '\n' ∉ text →
      (∀ t ∈ tasks, '\n' ∉ t.text) →
      ∀ t ∈ (addTask text tasks).1, '\n' ∉ t.text) ∧
    (∀ (tasks : List Task) (i : Nat), (∀ t ∈ tasks, '\n' ∉ t.text) →
      ∀ t ∈ toggleTask tasks i, '\n' ∉ t.text) ∧
    (∀ (refs : List Nat) (tasks : List Task), (∀ t ∈ tasks, '\n' ∉ t.text) →
      ∀ t ∈ (removeTasks refs tasks).1, '\n' ∉ t.text) := by
  refine ⟨?_, ?_, ?_, ?_⟩
  · intro content t ht
    rcases List.mem_map.mp ht with ⟨chunk, _, rfl⟩
    rcases hsp : splitAtFirst ';' chunk with _ | ⟨pre, post⟩
    · simp only [parseLine, hsp]
      exact truncAtNewline_no_newline chunk
    · simp only [parseLine, hsp]
      exact truncAtNewline_no_newline post
  · intro text tasks htext htasks t ht
    by_cases hpos : 0 < text.length
    · simp only [addTask, if_pos hpos] at ht
      rcases List.mem_append.mp ht with h1 | h2
      · exact htasks t h1
      · rcases List.mem_singleton.mp h2 with rfl
        exact htext
    · simp only [addTask, if_neg hpos] at ht
      exact htasks t ht
  · intro tasks
    induction tasks with
    | nil => intro i _ t ht; simp [toggleTask] at ht
    | cons u us ih =>
      intro i h t ht
      cases i with
      | zero =>
        simp only [toggleTask] at ht
        rcases List.mem_cons.mp ht with rfl | h2
        · show '\n' ∉ u.text
          exact h u (List.mem_cons_self u us)
        · exact h _ (List.mem_cons_of_mem _ h2)
      | succ j =>
        simp only [toggleTask] at ht
        rcases List.mem_cons.mp ht with rfl | h2
        · exact h _ (List.mem_cons_self _ _)
        · exact ih j (fun v hv => h v (List.mem_cons_of_mem u hv)) _ h2
  · intro refs tasks h t ht
    exact h t (mem_removeAux ht)

/-- Witness for `C3_no_newline_invariant`: the task created by adding the
newline-free text `a` to the empty list has no newline in its text. -/
theorem C3_no_newline_invariant_witness :
    '\n' ∉ (Task.mk ['a'] false).text :=
  C3_no_newline_invariant.2.1 ['a'] [] (by decide) (by decide)
    (Task.mk ['a'] false) (by decide)

end ProjectTracker

namespace ProjectTracker

theorem length_filter_partition {α : Type} (l : List α) (p : α → Bool) :
    (l.filter p).length + (l.filter (fun a => !(p a))).length = l.length := by
  induction l with
  | nil => rfl
  | cons x xs ih =>
    cases hx : p x <;> simp [List.filter_cons, hx] <;> omega

theorem removeAux_enumFrom (refs : List Nat) :
    ∀ (ts : List Task) (i : Nat),
      removeAux refs ts i =
        ((ts.enumFrom i).filter (fun p => !(refs.contains p.1))).map Prod.snd := by
  intro ts
  induction ts with
  | nil => intro i; rfl
  | cons u us ih =>
    intro i
    by_cases hc : refs.contains i = true
    · simp only [removeAux, if_pos hc, List.enumFrom_cons, List.filter_cons,
        hc, Bool.not_true, if_false]
      exact ih (i + 1)
    · have hc' : refs.contains i = false := by
        cases hpx : refs.contains i
        · rfl
        · exact absurd hpx hc
      simp only [removeAux, hc', Bool.false_eq_true, if_false,
        List.enumFrom_cons, List.filter_cons, Bool.not_false, if_true,
        List.map_cons]
      rw [ih (i + 1)]

/-- C5 (amended): batch removal keeps exactly the tasks whose position is
not referenced, in their original order (so unknown positions are ignored),
reports as "removed" exactly the number of referenced positions present in
the list, and performs exactly one save when the reference set is
non-empty — and none when it is empty, the amendment forced by
`C5_counterexample`. -/
theorem C5_remove_batch (refs : List Nat) (tasks : List Task) :
    (removeTasks refs tasks).1 =
      (tasks.enum.filter (fun p => !(refs.contains p.1))).map Prod.snd ∧
    (removeTasks refs tasks).2.1 =
      (tasks.enum.filter (fun p => refs.contains p.1)).length ∧
    (removeTasks refs tasks).2.2 = (if refs = [] then 0 else 1) := by
  refine ⟨?_, ?_, ?_⟩
  · exact removeAux_enumFrom refs tasks 0
  · show tasks.length - (removeAux refs tasks 0).length = _
    rw [removeAux_enumFrom refs tasks 0, List.length_map]
    simp only [List.enum]
    have hpart := length_filter_partition (tasks.enumFrom 0)
      (fun p => refs.contains p.1)
    have hlen : (tasks.enumFrom 0).length = tasks.length :=
      List.enumFrom_length
    omega
  · cases refs with
    | nil => rfl
    | cons r rs => rfl

/-- C5 fails as stated on the empty reference set: with nothing selected the
code takes the `if (selected_rows)` false branch and performs no save at
all, not exactly one. -/
theorem C5_counterexample :
    (removeTasks [] [Task.mk ['a'] false]).2.2 ≠ 1 := by
  decide

end ProjectTracker
